import Mathlib

/-!
# Verification of the guilty repository-browsing engine

Shallow embedding of the Go backend (`main.go`) of soramimi/guilty:
a git repository store exposed through a browsable tree/file API.

The external `git` tool is modelled as an oracle (`GitOracle`): a record of
the outputs the subprocess invocations would produce (`none` = non-zero
exit).  The filesystem is modelled where a claim needs it (`FS`, `OsDirEnt`).
Go strings are Lean `String`s handled at `Char` granularity, except for the
URL path codec, which is modelled at the byte level (`Byte := Fin 256`)
because Go's `strings.Index` / `url.PathUnescape` work on raw bytes.
`time.Time` values are unix seconds (`Int`); file modes are `Nat` masked
with `&&&` as Go masks with `&`.
-/

/-- ASCII whitespace as recognised by Go's `unicode.IsSpace`
(space, tab, newline, vertical tab, form feed, carriage return). -/
def goIsSpace (c : Char) : Bool :=
  c.toNat = 32 || c.toNat = 9 || c.toNat = 10 || c.toNat = 11 || c.toNat = 12 || c.toNat = 13

/-- Go `strings.Split(s, sep)` for a one-character separator, on char lists:
splits at every separator, keeping empty segments (`Split("", "/") = [""]`). -/
def splitChar (sep : Char) : List Char → List (List Char)
  | [] => [[]]
  | c :: cs =>
    if c = sep then [] :: splitChar sep cs
    else
      match splitChar sep cs with
      | [] => [[c]]
      | w :: ws => (c :: w) :: ws

/-- `splitChar` lifted to `String` (Go `strings.Split` with one-char separator). -/
def goSplitChar (sep : Char) (s : String) : List String :=
  (splitChar sep s.toList).map String.mk

/-- Worker for Go `strings.Fields`: splits around runs of whitespace,
dropping empty fields.  `acc` holds the current word reversed. -/
def fieldsAux : List Char → List Char → List (List Char)
  | [], acc => if acc = [] then [] else [acc.reverse]
  | c :: cs, acc =>
    if goIsSpace c then
      if acc = [] then fieldsAux cs [] else acc.reverse :: fieldsAux cs []
    else fieldsAux cs (c :: acc)

/-- Go `strings.Fields`. -/
def goFields (s : String) : List String :=
  (fieldsAux s.toList []).map String.mk

/-- Go `strings.TrimSpace`. -/
def goTrimSpace (s : String) : String :=
  String.mk (((s.toList.dropWhile goIsSpace).reverse.dropWhile goIsSpace).reverse)

/-- Go `strings.ToLower` (modelled on `Char.toLower`). -/
def goToLower (s : String) : String :=
  String.mk (s.toList.map Char.toLower)

/-- Go `strings.HasPrefix` (char-level; Go is byte-level, which agrees on
whole-character prefixes of valid UTF-8). -/
def goStartsWith (s pre : String) : Bool :=
  pre.toList.isPrefixOf s.toList

/-- Go `strings.HasSuffix`. -/
def goEndsWith (s suf : String) : Bool :=
  suf.toList.isSuffixOf s.toList

/-- Go `strings.TrimSuffix`. -/
def goTrimSuffix (s suf : String) : String :=
  if goEndsWith s suf then String.mk (s.toList.take (s.toList.length - suf.toList.length))
  else s

/-- Go `strings.Join(xs, " ")` as used to rejoin ls-tree name fields. -/
def joinSpace : List String → String
  | [] => ""
  | [w] => w
  | w :: ws => w ++ " " ++ joinSpace ws

/-- Go `strconv.ParseInt(s, 10, 64)`: optional sign, decimal digits,
error (`none`) on empty digits, stray characters, or int64 overflow. -/
def parseInt64 (s : String) : Option Int :=
  let cs := s.toList
  let signDigits : Bool × List Char :=
    match cs with
    | '+' :: rest => (false, rest)
    | '-' :: rest => (true, rest)
    | _ => (false, cs)
  let neg := signDigits.1
  let ds := signDigits.2
  if ds = [] then none
  else if ds.all (fun c => '0' ≤ c && c ≤ '9') then
    let v : Nat := ds.foldl (fun a c => a * 10 + (c.toNat - 48)) 0
    let i : Int := if neg then -(v : Int) else (v : Int)
    if -(2 ^ 63) ≤ i ∧ i ≤ 2 ^ 63 - 1 then some i else none
  else none

/-- Go `path/filepath.Clean` (unix rules): resolve `.`, `..`, repeated
slashes; `""` cleans to `"."`. -/
def goClean (path : String) : String :=
  if path = "" then "." else
  let cs := path.toList
  let rooted : Bool := match cs with | '/' :: _ => true | _ => false
  let comps := splitChar '/' cs
  let out := comps.foldl (fun acc c =>
      if c = [] ∨ c = ['.'] then acc
      else if c = ['.', '.'] then
        match acc with
        | [] => if rooted then [] else [['.', '.']]
        | top :: restAcc => if top = ['.', '.'] then c :: top :: restAcc else restAcc
      else c :: acc) []
  let body := List.intercalate ['/'] out.reverse
  let resList := if rooted then '/' :: body else body
  if resList = [] then "." else String.mk resList

/-- Go `filepath.Join(a, b)`: empty elements are dropped, the rest joined
with `/` and cleaned; all-empty yields `""`. -/
def goJoin2 (a b : String) : String :=
  if a = "" ∧ b = "" then ""
  else if a = "" then goClean b
  else if b = "" then goClean a
  else goClean (a ++ "/" ++ b)

/-- Go `filepath.Abs` (unix): an already-rooted path is just cleaned,
otherwise it is joined onto the working directory. -/
def goAbs (cwd path : String) : String :=
  if goStartsWith path "/" then goClean path else goJoin2 cwd path

/-- Go `filepath.Base`. -/
def goBase (path : String) : String :=
  if path = "" then "." else
  let cs := (path.toList.reverse.dropWhile (fun c => c = '/')).reverse
  if cs = [] then "/"
  else String.mk ((cs.reverse.takeWhile (fun c => c ≠ '/')).reverse)

/-- `splitRepositoryName` from main.go: split `"group/name"` at the last
slash, defaulting the group to `"git"`. -/
def splitRepositoryName (path : String) : String × String :=
  let cs := path.toList
  match cs.reverse.findIdx? (fun c => c = '/') with
  | none => ("git", path)
  | some k =>
    let i := cs.length - 1 - k
    (String.mk (cs.take i), String.mk (cs.drop (i + 1)))

/-! ## Data model (structs from main.go) -/

/-- `CommitInfo` from main.go; `Date` is unix seconds. -/
structure CommitInfo where
  Author : String
  Date : Int
  Message : String
deriving DecidableEq, Repr

/-- `GitFile` from main.go; `LastModified` is unix seconds. -/
structure GitFile where
  Name : String
  Path : String
  Typ : String
  Size : Int
  LastModified : Int
deriving DecidableEq, Repr

/-- `GitRepository` from main.go. -/
structure GitRepository where
  Path : String
  Group : String
  Name : String
  Typ : String
  CloneURL : String
  LastCommit : Option CommitInfo
deriving DecidableEq, Repr

/-- `RepositoryDetails` from main.go. -/
structure RepositoryDetails where
  Repository : GitRepository
  Files : List GitFile
  Branches : List String
  Tags : List String
deriving DecidableEq, Repr

/-- `GitRepositoryHome` constant from main.go. -/
def gitRepositoryHome : String := "/home/git"

/-- `GitHostName` from main.go. -/
def gitHostName : String := "git"

/-- `GitCloneURLTemplate` instantiated as main.go's `fmt.Sprintf` does. -/
def cloneURL (group name : String) : String :=
  "git@" ++ gitHostName ++ ":" ++ group ++ "/" ++ name ++ ".git"

/-- Outputs of the `git` subprocess invocations the engine performs.
`none` models a non-zero exit of the tool; `some out` its stdout. -/
structure GitOracle where
  /-- `git rev-list --count HEAD`. -/
  revListCountHead : Option String
  /-- `git ls-tree <treeish>` keyed by treeish (`"HEAD"` or `"HEAD:" ++ dir`). -/
  lsTree : String → Option String
  /-- `git log -1 --format=%an|%at|%s`. -/
  logLast : Option String
  /-- `git log -1 --format=%at -- <path>` keyed by path. -/
  logLastFile : String → Option String
  /-- `git cat-file -s <hash>` keyed by object hash. -/
  catFileSize : String → Option String
  /-- `git branch --list`. -/
  branchList : Option String
  /-- `git tag --list`. -/
  tagList : Option String

/-- Log strings recording which subprocesses a request ran. -/
def revListCmd : String := "git rev-list --count HEAD"

/-- Log string for a `git ls-tree` invocation. -/
def lsTreeCmd (treeish : String) : String := "git ls-tree " ++ treeish

/-- Log string for a `git cat-file -s` invocation. -/
def catFileCmd (hash : String) : String := "git cat-file -s " ++ hash

/-- Log string for a per-file `git log -1 --format=%at` invocation. -/
def logFileCmd (path : String) : String := "git log -1 --format=%at -- " ++ path

/-! ## Commit metadata (getLastCommit, getFileLastModified, hasCommits) -/

/-- Parsing step of `getLastCommit`: trim the output, split on `|`,
require exactly three parts, parse the epoch-seconds field; any failure
(including a failed command, `none`) yields `none`. -/
def parseLastCommit (output : Option String) : Option CommitInfo :=
  match output with
  | none => none
  | some out =>
    match goSplitChar '|' (goTrimSpace out) with
    | [a, t, m] =>
      match parseInt64 t with
      | none => none
      | some unixTime => some { Author := a, Date := unixTime, Message := m }
    | _ => none

/-- `getLastCommit` from main.go (repository-level, empty path). -/
def getLastCommit (o : GitOracle) : Option CommitInfo :=
  parseLastCommit o.logLast

/-- `hasCommits` from main.go: `git rev-list --count HEAD`, parse, `> 0`;
any failure counts as "no commits". -/
def hasCommits (o : GitOracle) : Bool :=
  match o.revListCountHead with
  | none => false
  | some out =>
    match parseInt64 (goTrimSpace out) with
    | none => false
    | some count => decide (count > 0)

/-- `getFileLastModified` from main.go: single `%at` query scoped to the
path; on command failure or a parse failure it returns the current time
`now` (Go: `time.Now()`), not an error and not an absent value. -/
def getFileLastModified (o : GitOracle) (now : Int) (filePath : String) : Int :=
  match o.logLastFile filePath with
  | none => now
  | some out =>
    match parseInt64 (goTrimSpace out) with
    | none => now
    | some unixTime => unixTime

/-- `getGitObjectSize` from main.go (bare invocation form): `git cat-file
-s <hash>`; command failure or unparseable output yields size 0. -/
def getGitObjectSize (o : GitOracle) (objectHash : String) : Int :=
  match o.catFileSize objectHash with
  | none => 0
  | some out =>
    match parseInt64 (goTrimSpace out) with
    | none => 0
    | some size => size

/-! ## Tree listing (getRepositoryFiles, getDirectoryContents) -/

/-- One iteration of the ls-tree parsing loop shared by
`getRepositoryFiles` (`dirPrefix = none`) and `getDirectoryContents`
(`dirPrefix = some dirPath`): skip empty lines, split into fields,
require at least four (`mode type object name...`), classify `tree` as
`"dir"`, rejoin all trailing fields with single spaces as the name. -/
def parseLsTreeLine (o : GitOracle) (now : Int) (dirPrefix : Option String)
    (line : String) : Option GitFile :=
  if line = "" then none else
  match goFields line with
  | _ :: p1 :: p2 :: rest =>
    match rest with
    | [] => none
    | _ :: _ =>
      let fileType := if p1 = "tree" then "dir" else "file"
      let fileName := joinSpace rest
      let fileSize : Int := if fileType = "file" then getGitObjectSize o p2 else 0
      let filePath :=
        match dirPrefix with
        | none => fileName
        | some d => goJoin2 d fileName
      some { Name := fileName, Path := filePath, Typ := fileType,
             Size := fileSize, LastModified := getFileLastModified o now filePath }
  | _ => none

/-- Subprocess log of one ls-tree line: a `cat-file -s` for blobs plus a
per-path `git log -1 --format=%at`, mirroring `parseLsTreeLine`. -/
def parseLsTreeLineLog (dirPrefix : Option String) (line : String) : List String :=
  if line = "" then [] else
  match goFields line with
  | _ :: p1 :: p2 :: rest =>
    match rest with
    | [] => []
    | _ :: _ =>
      let fileName := joinSpace rest
      let filePath :=
        match dirPrefix with
        | none => fileName
        | some d => goJoin2 d fileName
      (if (if p1 = "tree" then "dir" else "file") = "file" then [catFileCmd p2] else []) ++
        [logFileCmd filePath]
  | _ => []

/-- The `sort.Slice` comparator of main.go's listing functions:
directories before files, then case-insensitive name ascending. -/
def fileLess (a b : GitFile) : Bool :=
  if a.Typ ≠ b.Typ then decide (a.Typ = "dir")
  else decide (goToLower a.Name < goToLower b.Name)

/-- Ordered insertion for the model of Go's `sort.Slice`. -/
def insertLe (le : α → α → Bool) (x : α) : List α → List α
  | [] => [x]
  | y :: ys => if le x y then x :: y :: ys else y :: insertLe le x ys

/-- Comparison sort used to model Go's `sort.Slice`; Go's sort guarantees
exactly that consecutive elements `a, b` satisfy `¬ less b a`, which this
insertion sort realises for the non-strict relation `fun a b => ¬ less b a`. -/
def sortByLe (le : α → α → Bool) (l : List α) : List α :=
  l.foldr (insertLe le) []

/-- The file sort performed at the end of both listing functions. -/
def sortFiles (files : List GitFile) : List GitFile :=
  sortByLe (fun a b => ! fileLess b a) files

/-- `getRepositoryFiles` from main.go: root listing at HEAD.  Returns the
(always-`ok`) result together with the log of subprocess invocations:
zero commits short-circuits after the `rev-list` query; a failed
`ls-tree` also degrades to an empty listing. -/
def getRepositoryFiles (o : GitOracle) (now : Int) :
    Except String (List GitFile) × List String :=
  if hasCommits o = false then (.ok [], [revListCmd])
  else
    match o.lsTree "HEAD" with
    | none => (.ok [], [revListCmd, lsTreeCmd "HEAD"])
    | some out =>
      let lines := goSplitChar '\n' (goTrimSpace out)
      let files := lines.filterMap (parseLsTreeLine o now none)
      let logs := lines.flatMap (parseLsTreeLineLog none)
      (.ok (sortFiles files), [revListCmd, lsTreeCmd "HEAD"] ++ logs)

/-- `getDirectoryContents` from main.go: listing of `HEAD:dirPath`;
a failed `ls-tree` is a genuine error here. -/
def getDirectoryContents (o : GitOracle) (now : Int) (dirPath : String) :
    Except String (List GitFile) × List String :=
  match o.lsTree ("HEAD:" ++ dirPath) with
  | none => (.error "ls-tree failed", [lsTreeCmd ("HEAD:" ++ dirPath)])
  | some out =>
    let lines := goSplitChar '\n' (goTrimSpace out)
    let files := lines.filterMap (parseLsTreeLine o now (some dirPath))
    let logs := lines.flatMap (parseLsTreeLineLog (some dirPath))
    (.ok (sortFiles files), [lsTreeCmd ("HEAD:" ++ dirPath)] ++ logs)

/-! ## Branch/tag listing and repository details -/

/-- `getRepositoryBranches` from main.go: split lines, skip empties,
trim, strip a leading current-branch marker. -/
def getRepositoryBranches (o : GitOracle) : Except String (List String) :=
  match o.branchList with
  | none => .error "branch list failed"
  | some out =>
    let lines := goSplitChar '\n' (goTrimSpace out)
    .ok (lines.filterMap fun line =>
      if line = "" then none
      else
        let branch := goTrimSpace line
        some (if goStartsWith branch "* " then String.mk (branch.toList.drop 2) else branch))

/-- `getRepositoryTags` from main.go. -/
def getRepositoryTags (o : GitOracle) : Except String (List String) :=
  match o.tagList with
  | none => .error "tag list failed"
  | some out =>
    let lines := goSplitChar '\n' (goTrimSpace out)
    .ok (lines.filterMap fun line =>
      if line = "" then none else some (goTrimSpace line))

/-- The GET branch of `repositoryDetailsHandler` after path decoding:
existence check, then repository record (note the handler leaves `Group`
and `Typ` at their zero value), last commit, root file listing, and
branch/tag lists that degrade to `[]` on error. -/
def getRepositoryDetails (repoExists : Bool) (o : GitOracle) (now : Int)
    (groupName repoName : String) : Except String RepositoryDetails :=
  if repoExists = false then .error "repository not found"
  else
    let repo : GitRepository :=
      { Path := goJoin2 groupName repoName, Group := "", Name := repoName, Typ := "",
        CloneURL := cloneURL groupName repoName, LastCommit := getLastCommit o }
    match (getRepositoryFiles o now).1 with
    | .error e => .error e
    | .ok files =>
      let branches := match getRepositoryBranches o with | .ok bs => bs | .error _ => []
      let tags := match getRepositoryTags o with | .ok ts => ts | .error _ => []
      .ok { Repository := repo, Files := files, Branches := branches, Tags := tags }

/-! ## Directory-contents handler (post-decode part) -/

/-- Errors of the directory-contents request. -/
inductive DirError where
  | notFound
  | pathEscape
  | listFailed (msg : String)
deriving DecidableEq, Repr

/-- `directoryContentsHandler` from main.go after the path codec has
produced `(groupName, repoName, dirPath)` — the engine's
`listDirectory`.  Returns the response together with the log of git
subprocess invocations the request performed.  An empty `dirPath` lists
the root via `getRepositoryFiles`; a non-empty one is joined to the
repository path, both are made absolute, and a candidate whose absolute
form does not have the repository root as a string prefix is rejected
before any git invocation. -/
def directoryContentsCore (repoExists : Bool) (o : GitOracle) (now : Int)
    (cwd groupName repoName dirPath : String) :
    Except DirError (List GitFile) × List String :=
  let fullRepoPath := goJoin2 (goJoin2 gitRepositoryHome groupName) (repoName ++ ".git")
  if repoExists = false then (.error .notFound, [])
  else if dirPath = "" then
    match getRepositoryFiles o now with
    | (.ok files, logs) => (.ok files, logs)
    | (.error e, logs) => (.error (.listFailed e), logs)
  else
    let fullDirPath := goJoin2 fullRepoPath dirPath
    let absRepoPath := goAbs cwd fullRepoPath
    let absDirPath := goAbs cwd fullDirPath
    if goStartsWith absDirPath absRepoPath = false then (.error .pathEscape, [])
    else
      match getDirectoryContents o now dirPath with
      | (.ok files, logs) => (.ok files, logs)
      | (.error e, logs) => (.error (.listFailed e), logs)

/-! ## Filesystem model for lifecycle operations

The store is modelled as a partial map from repository-directory paths to
their permission mode: `deleteRepository` and `createRepository` treat
each repository directory as one unit (rename, remove-all, chmod act on
the whole subtree). -/

/-- Filesystem state: path to permission mode of the directory there. -/
def FS : Type := String → Option Nat

/-- `os.Chmod`: sets the mode when the path exists, otherwise the error
is ignored by all callers in main.go, so the state is unchanged. -/
def fsChmod (fs : FS) (p : String) (m : Nat) : FS :=
  fun q => if q = p then (fs p).map (fun _ => m) else fs q

/-- `os.RemoveAll`. -/
def fsRemoveAll (fs : FS) (p : String) : FS :=
  fun q => if q = p then none else fs q

/-- `os.Rename p q`. -/
def fsRename (fs : FS) (p q : String) : FS :=
  fun r => if r = q then fs p else if r = p then none else fs r

/-- `os.MkdirAll` with mode 0755: creates the directory if absent,
leaves an existing one untouched. -/
def fsMkdirAll (fs : FS) (p : String) : FS :=
  fun q => if q = p then some ((fs p).getD 0o755) else fs q

/-- `deleteRepository` from main.go: resolve `<home>/<group>/<name>.git`;
absent → NotFound with no change.  Otherwise: if the quarantine path
`<repoPath>.deleted` is already occupied, chmod it to 0755 and remove it;
then rename active → quarantine and chmod the quarantine path to 0. -/
def deleteRepositoryFS (fs : FS) (name : String) : Except String Unit × FS :=
  let pr := splitRepositoryName name
  let repoPath := goJoin2 (goJoin2 gitRepositoryHome pr.1) (pr.2 ++ ".git")
  match fs repoPath with
  | none => (.error ("repository does not exist: " ++ pr.2), fs)
  | some _ =>
    let newPath := repoPath ++ ".deleted"
    let fs1 :=
      match fs newPath with
      | some _ => fsRemoveAll (fsChmod fs newPath 0o755) newPath
      | none => fs
    let fs2 := fsRename fs1 repoPath newPath
    let fs3 := fsChmod fs2 newPath 0
    (.ok (), fs3)

/-- The allow-pattern of repository and group names
(regexp `[a-zA-Z0-9_-]`). -/
def isWordChar (c : Char) : Bool :=
  c.isAlphanum || c = '-' || c = '_'

/-- `validateRepositoryName` from main.go: non-empty, allow-pattern,
and no repository already at the target path. -/
def validateRepositoryName (fs : FS) (name group : String) : Option String :=
  if name = "" then some "no repository name"
  else if (name.toList.all isWordChar && decide (name ≠ "")) = false then some "invalid name"
  else
    let g := if group = "" then "git" else group
    let repoPath := goJoin2 (goJoin2 gitRepositoryHome g) (name ++ ".git")
    if (fs repoPath).isSome then some "repository already exists" else none

/-- `createRepository` from main.go: MkdirAll then `git init --bare`
(success given by `initOk`); on init failure the directory is removed. -/
def createRepositoryFS (fs : FS) (name group : String) (initOk : Bool) :
    Except String Unit × FS :=
  let pr := if group = "" then splitRepositoryName name else (group, name)
  let repoPath := goJoin2 (goJoin2 gitRepositoryHome pr.1) (pr.2 ++ ".git")
  let fs1 := fsMkdirAll fs repoPath
  if initOk then (.ok (), fs1)
  else (.error "init failed", fsRemoveAll fs1 repoPath)

/-- The POST branch of `repositoriesHandler`: validation followed by
creation. -/
def createRepositoryFull (fs : FS) (name group : String) (initOk : Bool) :
    Except String Unit × FS :=
  match validateRepositoryName fs name group with
  | some e => (.error e, fs)
  | none => createRepositoryFS fs name group initOk

/-! ## Discovery (getDirectories, getGitRepositories, getGroupList) -/

/-- One entry of `os.ReadDir` on the store root or a group directory,
with the filesystem facts the scan consults: whether it is a directory
or a symlink whose target is a directory (`symlinkTargetIsDir = none`
models an unreadable link or unresolvable target), the `os.Stat` mode of
the entry path (`none` = stat error), and whether `<path>/HEAD` exists. -/
structure OsDirEnt where
  name : String
  isDir : Bool
  isSymlink : Bool
  symlinkTargetIsDir : Option Bool
  statMode : Option Nat
  hasHead : Bool
deriving DecidableEq, Repr

/-- `getDirectories` from main.go, keeping the source entry next to the
path it produces: plain directories pass; symlinks pass only when their
target resolves to a directory; everything else is skipped. -/
def getDirectoriesEnts (base : String) (entries : List OsDirEnt) :
    List (String × OsDirEnt) :=
  entries.filterMap fun e =>
    if e.isDir = false ∧ e.isSymlink = false then none
    else if e.isSymlink then
      match e.symlinkTargetIsDir with
      | none => none
      | some b => if b then some (goJoin2 base e.name, e) else none
    else some (goJoin2 base e.name, e)

/-- The repository-list `sort.Slice` comparator: last-commit date
descending, repositories without commit info last. -/
def repoLess (a b : GitRepository) : Bool :=
  match a.LastCommit with
  | none => false
  | some ca =>
    match b.LastCommit with
    | none => true
    | some cb => decide (cb.Date < ca.Date)

/-- `getGitRepositories` from main.go: scan the group directory, skip
entries whose stat fails or whose mode has no read bit (mask 0444), keep
those with a `HEAD` file, strip a `.git` suffix from the name, build the
clone URL and last-commit info, sort by commit date descending.
`lastCommitOutput` is the per-path `git log -1 --format=%an|%at|%s`
oracle. -/
def getGitRepositories (entries : List OsDirEnt)
    (lastCommitOutput : String → Option String) (groupName : String) :
    Except String (List GitRepository) :=
  if groupName = "" then .error "group name must not be empty"
  else
    let gitDir := goJoin2 gitRepositoryHome groupName
    let repositories := (getDirectoriesEnts gitDir entries).filterMap fun pe =>
      match pe.2.statMode with
      | none => none
      | some mode =>
        if mode &&& 0o444 = 0 then none
        else if pe.2.hasHead then
          let base := goBase pe.1
          let repoName := if goEndsWith base ".git" then goTrimSuffix base ".git" else base
          some { Path := pe.1, Group := groupName, Name := repoName, Typ := "bare",
                 CloneURL := cloneURL groupName repoName,
                 LastCommit := parseLastCommit (lastCommitOutput pe.1) }
        else none
    .ok (sortByLe (fun a b => ! repoLess b a) repositories)

/-- `isValidGroupName` from main.go: allow-pattern plus the
`git-shell-commands` denylist. -/
def isValidGroupName (name : String) : Bool :=
  (decide (name ≠ "") && name.toList.all isWordChar) && !(decide (name = "git-shell-commands"))

/-- `getGroupList` from main.go.  Note the source sets its
`hasGitGroup` flag as soon as a directory named `git` passes name
validation — before the stat/permission filter — and only appends the
default group when that flag stayed false. -/
def getGroupList (entries : List OsDirEnt) : List String :=
  let paths := getDirectoriesEnts gitRepositoryHome entries
  let step := paths.foldl (fun (acc : List String × Bool) pe =>
      let groupName := goBase pe.1
      if isValidGroupName groupName = false then acc
      else
        let acc2 := (acc.1, acc.2 || decide (groupName = "git"))
        match pe.2.statMode with
        | none => acc2
        | some mode =>
          if mode &&& 0o444 = 0 then acc2 else (acc2.1 ++ [groupName], acc2.2))
    ([], false)
  let groups := if step.2 then step.1 else step.1 ++ ["git"]
  sortByLe (fun a b => decide (a ≤ b)) groups

/-! ## URL path codec (byte level)

Go handles the raw request path as bytes; the codec of
`directoryContentsHandler` / `fileContentsHandler` is modelled on byte
lists.  `/` is byte 47, `%` is byte 37. -/

/-- A byte of the raw URL path. -/
abbrev Byte := Fin 256

/-- The byte of `/`. -/
def slashB : Byte := 47

/-- The byte of `%`. -/
def percentB : Byte := 37

/-- Go `strings.Index(s, "/")`: position of the first raw slash. -/
def byteIndexOfSlash : List Byte → Option Nat
  | [] => none
  | b :: rest =>
    if b = slashB then some 0 else (byteIndexOfSlash rest).map (fun i => i + 1)

/-- Value of a hex digit byte as in Go's `net/url` `ishex`/`unhex`. -/
def hexVal (b : Byte) : Option (Fin 16) :=
  if h1 : 48 ≤ b.val ∧ b.val ≤ 57 then some ⟨b.val - 48, by omega⟩
  else if h2 : 97 ≤ b.val ∧ b.val ≤ 102 then some ⟨b.val - 97 + 10, by omega⟩
  else if h3 : 65 ≤ b.val ∧ b.val ≤ 70 then some ⟨b.val - 65 + 10, by omega⟩
  else none

/-- Go `url.PathUnescape`: decode each `%XX` (two hex digits required,
otherwise an escape error, `none`); all other bytes pass through. -/
def pathUnescape : List Byte → Option (List Byte)
  | [] => some []
  | b :: rest =>
    if b = percentB then
      match rest with
      | h1 :: h2 :: rest2 =>
        match hexVal h1, hexVal h2 with
        | some x, some y =>
          (pathUnescape rest2).map (fun t => (⟨16 * x.val + y.val, by omega⟩ : Byte) :: t)
        | _, _ => none
      | _ => none
    else (pathUnescape rest).map (fun t => b :: t)

/-- Unreserved bytes that the contract's percent-encoding leaves as-is
(letters, digits, `-`, `.`, `_`, `~`); everything else — in particular
`/` and `%` — is escaped. -/
def isUnreservedByte (b : Byte) : Bool :=
  (48 ≤ b.val && b.val ≤ 57) || (65 ≤ b.val && b.val ≤ 90) || (97 ≤ b.val && b.val ≤ 122) ||
    b.val = 45 || b.val = 46 || b.val = 95 || b.val = 126

/-- Upper-case hex digit byte of a nibble. -/
def hexDigitUpper (n : Fin 16) : Byte :=
  if n.val < 10 then ⟨48 + n.val, by omega⟩ else ⟨55 + n.val, by omega⟩

/-- Modelled from the spec: the path-encoding contract exposed to
callers (spec §4.1/§6) — each segment independently percent-encoded so
that no unencoded `/` remains inside a segment (the client-side encoder
lives outside the Go backend).  One byte encodes to itself when
unreserved and to `%XX` otherwise. -/
def percentEncodeByte (b : Byte) : List Byte :=
  if isUnreservedByte b then [b]
  else [percentB, hexDigitUpper ⟨b.val / 16, by omega⟩, hexDigitUpper ⟨b.val % 16, by omega⟩]

/-- Modelled from the spec: percent-encoding of one segment (group,
repository name, or the whole sub-path with its internal slashes). -/
def percentEncode (s : List Byte) : List Byte :=
  s.flatMap percentEncodeByte

/-- Errors of the path codec. -/
inductive CodecError where
  | noGroup
  | badGroup
  | badRepo
  | badPath
deriving DecidableEq, Repr

/-- The codec of `directoryContentsHandler`: find the first raw slash
(group/name boundary; absent → malformed), then the second raw slash in
the remainder (absent → the whole remainder is the repository name and
the sub-path is empty); percent-decode the three raw segments
independently, an empty encoded sub-path decoding to the empty path. -/
def decodeDirectoryPath (encodedPath : List Byte) :
    Except CodecError (List Byte × List Byte × List Byte) :=
  match byteIndexOfSlash encodedPath with
  | none => .error .noGroup
  | some firstSlashPos =>
    let encodedGroupName := encodedPath.take firstSlashPos
    let afterFirst := encodedPath.drop (firstSlashPos + 1)
    let pr :=
      match byteIndexOfSlash afterFirst with
      | none => (afterFirst, ([] : List Byte))
      | some j => (afterFirst.take j, afterFirst.drop (j + 1))
    match pathUnescape encodedGroupName with
    | none => .error .badGroup
    | some groupName =>
      match pathUnescape pr.1 with
      | none => .error .badRepo
      | some repoName =>
        if pr.2 = [] then .ok (groupName, repoName, [])
        else
          match pathUnescape pr.2 with
          | none => .error .badPath
          | some dirPath => .ok (groupName, repoName, dirPath)

/-! ## Helper lemmas: the sort model -/

/-- An oracle all of whose invocations fail. -/
def noOracle : GitOracle :=
  ⟨none, fun _ => none, none, fun _ => none, fun _ => none, none, none⟩

theorem mem_insertLe {le : α → α → Bool} {x a : α} {l : List α} :
    a ∈ insertLe le x l ↔ a = x ∨ a ∈ l := by
  induction l with
  | nil => simp [insertLe]
  | cons y ys ih =>
    simp only [insertLe]
    split
    · simp [List.mem_cons]
    · simp only [List.mem_cons, ih]
      tauto

theorem mem_sortByLe {le : α → α → Bool} {a : α} {l : List α} :
    a ∈ sortByLe le l ↔ a ∈ l := by
  induction l with
  | nil => simp [sortByLe]
  | cons y ys ih =>
    show a ∈ insertLe le y (sortByLe le ys) ↔ _
    rw [mem_insertLe, ih]
    simp

theorem chain_insertLe {le : α → α → Bool} (htot : ∀ a b, le a b || le b a)
    {x : α} {l : List α} (h : List.Chain' (fun a b => le a b = true) l) :
    List.Chain' (fun a b => le a b = true) (insertLe le x l) := by
  induction l with
  | nil => simp [insertLe]
  | cons y ys ih =>
    simp only [insertLe]
    split
    · exact List.Chain'.cons (by assumption) h
    · rename_i hxy
      have hyx : le y x = true := by
        have := htot x y
        simp [hxy] at this
        exact this
      rw [List.chain'_cons']
      refine ⟨?_, ih h.tail⟩
      intro b hb
      cases ys with
      | nil =>
        simp [insertLe] at hb
        subst hb
        exact hyx
      | cons z zs =>
        simp only [insertLe] at hb
        split at hb
        · simp at hb
          subst hb
          exact hyx
        · simp at hb
          subst hb
          exact (List.chain'_cons.mp h).1

theorem chain_sortByLe {le : α → α → Bool} (htot : ∀ a b, le a b || le b a)
    (l : List α) : List.Chain' (fun a b => le a b = true) (sortByLe le l) := by
  induction l with
  | nil => simp [sortByLe]
  | cons y ys ih => exact chain_insertLe htot ih

theorem fileLe_total : ∀ a b : GitFile, (! fileLess b a) || (! fileLess a b) := by
  intro a b
  by_cases hab : fileLess a b = true <;> by_cases hba : fileLess b a = true <;>
    simp [hab, hba]
  unfold fileLess at hab hba
  by_cases heq : a.Typ = b.Typ
  · simp [heq] at hab hba
    exact absurd hba (lt_asymm hab)
  · simp [heq, Ne.symm heq] at hab hba
    exact heq (hab.trans hba.symm)

/-- Entry kinds the ls-tree parser can produce. -/
def kindOk (f : GitFile) : Prop := f.Typ = "dir" ∨ f.Typ = "file"

theorem parseLsTreeLine_kindOk {o : GitOracle} {now : Int} {dp : Option String}
    {line : String} {f : GitFile} (h : parseLsTreeLine o now dp line = some f) :
    kindOk f := by
  unfold parseLsTreeLine at h
  split at h
  · exact absurd h (by simp)
  split at h
  · rename_i rest _
    split at h
    · exact absurd h (by simp)
    · simp only [Option.some.injEq] at h
      subst h
      unfold kindOk
      dsimp only
      split
      · exact Or.inl rfl
      · exact Or.inr rfl
  · exact absurd h (by simp)

/-- The sortedness invariant claimed for every listing: directory-kind
entries all precede file-kind entries, and consecutive same-kind entries
are in case-insensitive ascending name order. -/
def sortedListing (files : List GitFile) : Prop :=
  List.Pairwise (fun a b => ¬ (a.Typ = "file" ∧ b.Typ = "dir")) files ∧
  List.Chain' (fun a b => a.Typ = b.Typ → goToLower a.Name ≤ goToLower b.Name) files

theorem chain_file_tail {l : List GitFile} {a : GitFile}
    (hc : List.Chain' (fun a b => (! fileLess b a) = true) (a :: l))
    (ha : a.Typ = "file") (hk : ∀ f ∈ l, kindOk f) :
    ∀ b ∈ l, b.Typ = "file" := by
  induction l generalizing a with
  | nil => simp
  | cons b l2 ih =>
    have hab : (! fileLess b a) = true := (List.chain'_cons.mp hc).1
    have hbk := hk b (by simp)
    have hb : b.Typ = "file" := by
      rcases hbk with hd | hf
      · exfalso
        have hne : b.Typ ≠ a.Typ := by rw [hd, ha]; decide
        have : fileLess b a = true := by
          unfold fileLess
          rw [if_pos hne]
          simp [hd]
        simp [this] at hab
      · exact hf
    intro c hc2
    rcases List.mem_cons.mp hc2 with rfl | hc3
    · exact hb
    · exact ih ((List.chain'_cons.mp hc).2) hb (fun f hf => hk f (by simp [hf])) c hc3

theorem chain_dirs_first {l : List GitFile}
    (hc : List.Chain' (fun a b => (! fileLess b a) = true) l)
    (hk : ∀ f ∈ l, kindOk f) :
    List.Pairwise (fun a b => ¬ (a.Typ = "file" ∧ b.Typ = "dir")) l := by
  induction l with
  | nil => simp
  | cons a l ih =>
    rw [List.pairwise_cons]
    constructor
    · intro b hb hcon
      have hfiles := chain_file_tail hc hcon.1 (fun f hf => hk f (by simp [hf]))
      have := hfiles b hb
      rw [this] at hcon
      exact absurd hcon.2 (by decide)
    · exact ih hc.tail (fun f hf => hk f (by simp [hf]))

theorem sortFiles_sorted (l : List GitFile) (hk : ∀ f ∈ l, kindOk f) :
    sortedListing (sortFiles l) := by
  have hchain := chain_sortByLe fileLe_total l
  have hk2 : ∀ f ∈ sortFiles l, kindOk f := by
    intro f hf
    exact hk f (mem_sortByLe.mp hf)
  constructor
  · exact chain_dirs_first hchain hk2
  · refine List.Chain'.imp ?_ hchain
    intro a b hab heq
    have : fileLess b a = false := by simpa using hab
    unfold fileLess at this
    rw [if_neg (by rw [heq]; exact fun h => h rfl)] at this
    simpa using this

theorem listing_entries_kindOk {o : GitOracle} {now : Int} {dp : Option String}
    {lines : List String} :
    ∀ f ∈ lines.filterMap (parseLsTreeLine o now dp), kindOk f := by
  intro f hf
  rcases List.mem_filterMap.mp hf with ⟨line, _, hline⟩
  exact parseLsTreeLine_kindOk hline

/-- C2: every listing the engine produces — of the root or of a nested
path — has all directory-kind entries before all file-kind entries, and
consecutive same-kind entries in case-insensitive ascending name order. -/
theorem listings_sorted (o : GitOracle) (now : Int) (dirPath : String)
    (files : List GitFile) :
    ((getRepositoryFiles o now).1 = .ok files → sortedListing files) ∧
    ((getDirectoryContents o now dirPath).1 = .ok files → sortedListing files) := by
  constructor
  · intro h
    unfold getRepositoryFiles at h
    split at h
    · simp at h
      subst h
      exact ⟨by simp, by simp⟩
    · split at h
      · simp at h
        subst h
        exact ⟨by simp, by simp⟩
      · simp only [Except.ok.injEq] at h
        subst h
        exact sortFiles_sorted _ listing_entries_kindOk
  · intro h
    unfold getDirectoryContents at h
    split at h
    · simp at h
    · simp only [Except.ok.injEq] at h
      subst h
      exact sortFiles_sorted _ listing_entries_kindOk

/-- Oracle of a small repository used to instantiate the listing
theorems on concrete data. -/
def oListing : GitOracle :=
  { revListCountHead := some "2"
    lsTree := fun t =>
      if t = "HEAD" then some "100644 blob h1 b.txt\n040000 tree h2 sub\n100644 blob h3 A.txt"
      else if t = "HEAD:sub" then some "100644 blob h4 z.txt"
      else none
    logLast := some "alice|1700000000|hello"
    logLastFile := fun _ => some "1700000000"
    catFileSize := fun _ => some "10"
    branchList := some "* master"
    tagList := some "v1" }

/-- Witness for C2 at a concrete repository. -/
theorem listings_sorted_witness :
    (getRepositoryFiles oListing 0).1 =
      .ok ((getRepositoryFiles oListing 0).1.toOption.getD []) ∧
    sortedListing ((getRepositoryFiles oListing 0).1.toOption.getD []) :=
  ⟨rfl, (listings_sorted oListing 0 "" _).1 rfl⟩

/-- C1: a directory-listing request on an existing repository with a
non-empty sub-path whose form, joined to the repository root and made
absolute, is not a string-prefix of the repository root's absolute form,
is rejected with `pathEscape` and runs no git subprocess at all (the
invocation log is empty). -/
theorem listDirectory_path_escape (o : GitOracle) (now : Int)
    (cwd groupName repoName dirPath : String)
    (hne : dirPath ≠ "")
    (hesc : goStartsWith
      (goAbs cwd (goJoin2 (goJoin2 (goJoin2 gitRepositoryHome groupName) (repoName ++ ".git")) dirPath))
      (goAbs cwd (goJoin2 (goJoin2 gitRepositoryHome groupName) (repoName ++ ".git"))) = false) :
    directoryContentsCore true o now cwd groupName repoName dirPath = (.error .pathEscape, []) := by
  unfold directoryContentsCore
  simp [hne, hesc]

/-- Witness for C1: `dirPath = "../../etc"` escapes `/home/git/git/proj.git`. -/
theorem listDirectory_path_escape_witness :
    ("../../etc" ≠ "") ∧
    goStartsWith
      (goAbs "/" (goJoin2 (goJoin2 (goJoin2 gitRepositoryHome "git") ("proj" ++ ".git")) "../../etc"))
      (goAbs "/" (goJoin2 (goJoin2 gitRepositoryHome "git") ("proj" ++ ".git"))) = false ∧
    directoryContentsCore true noOracle 0 "/" "git" "proj" "../../etc" = (.error .pathEscape, []) :=
  ⟨by decide, by decide,
    listDirectory_path_escape noOracle 0 "/" "git" "proj" "../../etc" (by decide) (by decide)⟩

/-- C3: with a head-revision commit count of zero (and the overall
`git log -1` failing, as it does on a commitless repository), the root
listing is the empty list, produced after only the `rev-list` probe
(no tree-listing subprocess); the last commit is `none`; and
`getRepositoryDetails` succeeds with empty files and no last commit. -/
theorem zero_commit_repo (o : GitOracle) (now : Int) (groupName repoName cnt : String)
    (h0 : o.revListCountHead = some cnt)
    (h1 : parseInt64 (goTrimSpace cnt) = some 0)
    (h2 : o.logLast = none) :
    getRepositoryFiles o now = (.ok [], [revListCmd]) ∧
    getLastCommit o = none ∧
    ∃ d, getRepositoryDetails true o now groupName repoName = .ok d ∧
      d.Files = [] ∧ d.Repository.LastCommit = none := by
  have hhc : hasCommits o = false := by
    unfold hasCommits
    simp [h0, h1]
  have hfiles : getRepositoryFiles o now = (.ok [], [revListCmd]) := by
    unfold getRepositoryFiles
    rw [hhc]
    simp
  have hlast : getLastCommit o = none := by
    unfold getLastCommit parseLastCommit
    rw [h2]
  refine ⟨hfiles, hlast, ?_⟩
  unfold getRepositoryDetails
  rw [hfiles]
  simp only [Bool.true_eq_false, if_false]
  exact ⟨_, rfl, rfl, hlast⟩

/-- Oracle of a repository with zero commits: the count query answers
`0` and `git log -1` exits non-zero. -/
def noCommitOracle : GitOracle :=
  { revListCountHead := some "0"
    lsTree := fun _ => none
    logLast := none
    logLastFile := fun _ => none
    catFileSize := fun _ => none
    branchList := some ""
    tagList := some "" }

/-- Witness for C3 at a concrete commitless repository oracle. -/
theorem zero_commit_repo_witness :
    (noCommitOracle.revListCountHead = some "0") ∧
    parseInt64 (goTrimSpace "0") = some 0 ∧
    noCommitOracle.logLast = none ∧
    getRepositoryFiles noCommitOracle 0 = (.ok [], [revListCmd]) ∧
    getLastCommit noCommitOracle = none ∧
    ∃ d, getRepositoryDetails true noCommitOracle 0 "git" "proj" = .ok d ∧
      d.Files = [] ∧ d.Repository.LastCommit = none := by
  refine ⟨rfl, by decide, rfl, ?_⟩
  exact zero_commit_repo noCommitOracle 0 "git" "proj" "0" rfl (by decide) rfl

/-- C10: the size attached to tree entries — directory-kind entries
carry size 0; a failed or unparseable per-object size query yields 0,
not an error; and whether a listing succeeds depends only on the
`ls-tree` invocation, never on the size queries. -/
theorem entry_size_fallback :
    (∀ (o : GitOracle) (hash : String), o.catFileSize hash = none →
      getGitObjectSize o hash = 0) ∧
    (∀ (o : GitOracle) (hash out : String), o.catFileSize hash = some out →
      parseInt64 (goTrimSpace out) = none → getGitObjectSize o hash = 0) ∧
    (∀ (o : GitOracle) (now : Int) (dp : Option String) (line : String) (f : GitFile),
      parseLsTreeLine o now dp line = some f → f.Typ = "dir" → f.Size = 0) ∧
    (∀ (o : GitOracle) (now : Int) (dirPath : String),
      (getDirectoryContents o now dirPath).1.isOk =
        (o.lsTree ("HEAD:" ++ dirPath)).isSome) := by
  refine ⟨?_, ?_, ?_, ?_⟩
  · intro o hash h
    unfold getGitObjectSize
    rw [h]
  · intro o hash out h h2
    unfold getGitObjectSize
    rw [h]
    simp [h2]
  · intro o now dp line f h hdir
    unfold parseLsTreeLine at h
    split at h
    · exact absurd h (by simp)
    split at h
    · rename_i rest _
      split at h
      · exact absurd h (by simp)
      · simp only [Option.some.injEq] at h
        subst h
        simp only at hdir ⊢
        split at hdir
        · rename_i htree
          simp [htree]
        · exact absurd hdir (by simp)
    · exact absurd h (by simp)
  · intro o now dirPath
    unfold getDirectoryContents
    cases h : o.lsTree ("HEAD:" ++ dirPath) <;> rfl

/-- Witness for C10: a failing size oracle, a directory entry, and a
successful listing whose size queries all fail. -/
theorem entry_size_fallback_witness :
    (noOracle.catFileSize "h" = none ∧ getGitObjectSize noOracle "h" = 0) ∧
    (oListing.catFileSize "h" = some "10" ∧ parseInt64 (goTrimSpace "junk") = none) ∧
    (parseLsTreeLine noOracle 0 none "040000 tree h2 sub" = some
        { Name := "sub", Path := "sub", Typ := "dir", Size := 0, LastModified := 0 } ∧
      getGitObjectSize noOracle "junkhash" = 0) ∧
    ((getDirectoryContents oListing 0 "sub").1.isOk =
      (oListing.lsTree ("HEAD:" ++ "sub")).isSome) :=
  ⟨⟨rfl, entry_size_fallback.1 noOracle "h" rfl⟩,
   ⟨rfl, by decide⟩,
   ⟨by decide, entry_size_fallback.1 noOracle "junkhash" rfl⟩,
   entry_size_fallback.2.2.2 oListing 0 "sub"⟩

/-- C7 (code bug): when the store root holds a directory named `git`
that fails the read-permission filter (mode 0), `getGroupList` sets its
`hasGitGroup` flag before that filter runs, skips the entry, and never
appends the default group: the returned list is empty and in particular
does not contain `"git"`, although the scan itself succeeded. -/
theorem default_group_lost_when_git_unreadable :
    getGroupList [⟨"git", true, false, none, some 0, false⟩] = [] ∧
    ("git" ∈ getGroupList [⟨"git", true, false, none, some 0, false⟩]) = False := by
  constructor
  · decide
  · simp [show getGroupList [⟨"git", true, false, none, some 0, false⟩] = [] from by decide]

/-- C6 (counterexample): a quarantine-suffixed subtree that is readable
(quarantine's chmod-to-0 is explicitly allowed to fail in
`deleteRepository`) and still holds a `HEAD` file IS returned by the
repository listing — there is no name-based or explicit
quarantine-suffix exclusion in the scan. -/
theorem quarantined_repo_listed_cex :
    ((getGitRepositories [⟨"proj.git.deleted", true, false, none, some 0o755, true⟩]
        (fun _ => none) "git").toOption.getD []).any
      (fun r => goEndsWith r.Path ".deleted") = true := by decide

/-- C8 (counterexample): the per-file "last modified" query substitutes
the current clock on failure — calling it at two different current times
with a failing tool yields two different values, so the failure result
is a substituted value, not an absent one. -/
theorem file_last_modified_substitutes_now_cex :
    getFileLastModified noOracle 111 "README.md" = 111 ∧
    getFileLastModified noOracle 222 "README.md" = 222 ∧
    getFileLastModified noOracle 111 "README.md" ≠
      getFileLastModified noOracle 222 "README.md" := by decide

/-- C9 (counterexample): a name containing a run of two spaces is not
preserved intact — `strings.Fields` collapses the run and the rejoin
yields a single space: the record with trailing name `"a  b"` parses to
name `"a b"`. -/
theorem tree_name_whitespace_cex :
    (parseLsTreeLine noOracle 0 none ("100644 blob abcd " ++ "a  b")).map GitFile.Name =
      some "a b" ∧
    ("a b" : String) ≠ "a  b" := by decide

/-! ## Codec round-trip lemmas (C4) -/

theorem hexVal_hexDigitUpper : ∀ v : Fin 16, hexVal (hexDigitUpper v) = some v := by decide

set_option maxRecDepth 4096 in
theorem slash_not_mem_encodeByte : ∀ b : Byte, slashB ∉ percentEncodeByte b := by decide

theorem slash_not_mem_encode (s : List Byte) : slashB ∉ percentEncode s := by
  intro h
  rcases List.mem_flatMap.mp h with ⟨b, _, hb⟩
  exact slash_not_mem_encodeByte b hb

set_option maxRecDepth 4096 in
theorem encodeByte_ne_nil : ∀ b : Byte, percentEncodeByte b ≠ [] := by decide

theorem encode_eq_nil {s : List Byte} (h : percentEncode s = []) : s = [] := by
  cases s with
  | nil => rfl
  | cons b bs =>
    exfalso
    have h2 : percentEncodeByte b ++ percentEncode bs = [] := h
    rcases List.append_eq_nil.mp h2 with ⟨h1, _⟩
    exact encodeByte_ne_nil b h1

theorem byteIndex_append (xs ys : List Byte) (h : slashB ∉ xs) :
    byteIndexOfSlash (xs ++ slashB :: ys) = some xs.length := by
  induction xs with
  | nil => simp [byteIndexOfSlash]
  | cons b bs ih =>
    have hb : b ≠ slashB := fun e => h (e ▸ List.mem_cons_self b bs)
    show byteIndexOfSlash (b :: (bs ++ slashB :: ys)) = some (bs.length + 1)
    simp only [byteIndexOfSlash, if_neg hb]
    rw [ih (fun hm => h (List.mem_cons_of_mem b hm))]
    rfl

theorem pathUnescape_cons_plain (b : Byte) (rest : List Byte) (h : b ≠ percentB) :
    pathUnescape (b :: rest) = (pathUnescape rest).map (fun t => b :: t) := by
  match rest with
  | [] => simp [pathUnescape, h]
  | [c] => simp [pathUnescape, h]
  | c :: d :: cs => simp [pathUnescape, h]

theorem pathUnescape_cons_escape (x y : Fin 16) (h1 h2 : Byte) (rest : List Byte)
    (hx : hexVal h1 = some x) (hy : hexVal h2 = some y) :
    pathUnescape (percentB :: h1 :: h2 :: rest) =
      (pathUnescape rest).map
        (fun t => (⟨16 * x.val + y.val, by omega⟩ : Byte) :: t) := by
  simp [pathUnescape, hx, hy]

theorem unescape_encode (s : List Byte) : pathUnescape (percentEncode s) = some s := by
  induction s with
  | nil => rfl
  | cons b bs ih =>
    show pathUnescape (percentEncodeByte b ++ percentEncode bs) = some (b :: bs)
    unfold percentEncodeByte
    split
    · rename_i hres
      have hbp : b ≠ percentB := by
        intro e
        rw [e] at hres
        exact absurd hres (by decide)
      rw [List.cons_append, List.nil_append, pathUnescape_cons_plain b _ hbp, ih]
      rfl
    · rw [List.cons_append, List.cons_append, List.cons_append, List.nil_append,
        pathUnescape_cons_escape _ _ _ _ _ (hexVal_hexDigitUpper _) (hexVal_hexDigitUpper _), ih]
      have hb : (⟨16 * (⟨b.val / 16, by omega⟩ : Fin 16).val +
          (⟨b.val % 16, by omega⟩ : Fin 16).val, by omega⟩ : Byte) = b := by
        apply Fin.ext
        show 16 * (b.val / 16) + b.val % 16 = b.val
        omega
      simp [hb]

theorem drop_after_slash (xs ys : List Byte) :
    (xs ++ slashB :: ys).drop (xs.length + 1) = ys := by
  have h1 : xs ++ slashB :: ys = (xs ++ [slashB]) ++ ys := by simp
  have h2 : xs.length + 1 = (xs ++ [slashB]).length := by simp
  rw [h1, h2, List.drop_left]

theorem take_before_slash (xs ys : List Byte) :
    (xs ++ slashB :: ys).take xs.length = xs :=
  List.take_left xs (slashB :: ys)

/-- C4: the codec of the directory handler recovers every
`(group, repositoryName, subPath)` triple encoded per the exposed
contract — each segment percent-encoded with no unencoded slash inside,
sub-path slashes included — by splitting at the first two raw slashes
before decoding each segment independently; an encoded sub-path with
`%2F`-style sequences is never re-segmented. -/
theorem codec_roundtrip (g n p : List Byte) :
    decodeDirectoryPath
      (percentEncode g ++ slashB :: (percentEncode n ++ slashB :: percentEncode p)) =
      .ok (g, n, p) := by
  unfold decodeDirectoryPath
  rw [byteIndex_append _ _ (slash_not_mem_encode g)]
  simp only [take_before_slash, drop_after_slash]
  rw [byteIndex_append _ _ (slash_not_mem_encode n)]
  simp only [take_before_slash, drop_after_slash, unescape_encode]
  by_cases hp : percentEncode p = []
  · have hp2 : p = [] := encode_eq_nil hp
    subst hp2
    simp
  · rw [if_neg hp]

/-! ## Lifecycle lemmas (C5) -/

theorem ne_append_deleted (p : String) : p ≠ p ++ ".deleted" := by
  intro h
  have hl := congrArg String.length h
  rw [String.length_append] at hl
  have h8 : (".deleted" : String).length = 8 := rfl
  omega

theorem fsChmod_at (fs : FS) (p : String) (m : Nat) :
    fsChmod fs p m p = (fs p).map (fun _ => m) := by simp [fsChmod]

theorem fsChmod_other (fs : FS) (p : String) (m : Nat) (q : String) (h : q ≠ p) :
    fsChmod fs p m q = fs q := by simp [fsChmod, h]

theorem fsRemoveAll_other (fs : FS) (p q : String) (h : q ≠ p) :
    fsRemoveAll fs p q = fs q := by simp [fsRemoveAll, h]

theorem fsRename_at_target (fs : FS) (p q : String) :
    fsRename fs p q q = fs p := by simp [fsRename]

theorem fsRename_at_source (fs : FS) (p q : String) (h : p ≠ q) :
    fsRename fs p q p = none := by simp [fsRename, h]

theorem fsMkdirAll_at (fs : FS) (p : String) :
    fsMkdirAll fs p p = some ((fs p).getD 0o755) := by simp [fsMkdirAll]

theorem fsMkdirAll_other (fs : FS) (p q : String) (h : q ≠ p) :
    fsMkdirAll fs p q = fs q := by simp [fsMkdirAll, h]

/-- The active repository path of `(group, name)` as every lifecycle
function constructs it. -/
def repoPathOf (g b : String) : String :=
  goJoin2 (goJoin2 gitRepositoryHome g) (b ++ ".git")

theorem delete_ok (fs1 : FS) (name g b : String)
    (hsplit : splitRepositoryName name = (g, b))
    (m1 : Nat) (h1 : fs1 (repoPathOf g b) = some m1) :
    (deleteRepositoryFS fs1 name).1 = .ok () ∧
    (deleteRepositoryFS fs1 name).2 (repoPathOf g b) = none ∧
    (deleteRepositoryFS fs1 name).2 (repoPathOf g b ++ ".deleted") = some 0 := by
  have hRN : repoPathOf g b ≠ repoPathOf g b ++ ".deleted" := ne_append_deleted _
  have hNR : repoPathOf g b ++ ".deleted" ≠ repoPathOf g b := fun e => hRN e.symm
  unfold deleteRepositoryFS
  rw [hsplit]
  dsimp only
  rw [show goJoin2 (goJoin2 gitRepositoryHome g) (b ++ ".git") = repoPathOf g b from rfl, h1]
  dsimp only
  cases hN : fs1 (repoPathOf g b ++ ".deleted") with
  | none =>
    refine ⟨rfl, ?_, ?_⟩
    · rw [fsChmod_other _ _ _ _ hRN, fsRename_at_source _ _ _ hRN]
    · rw [fsChmod_at, fsRename_at_target]
      dsimp only
      rw [h1]
      rfl
  | some m2 =>
    refine ⟨rfl, ?_, ?_⟩
    · rw [fsChmod_other _ _ _ _ hRN, fsRename_at_source _ _ _ hRN]
    · rw [fsChmod_at, fsRename_at_target]
      dsimp only
      rw [fsRemoveAll_other _ _ _ hRN, fsChmod_other _ _ _ _ hRN, h1]
      rfl

/-- C5: with the active path present, quarantine succeeds — also when a
prior quarantine occupies the target, which is first made writable and
removed — leaving the active path gone and the quarantine path at mode
0; recreating the same name then succeeds, and quarantining again
succeeds as well.  With the active path absent, quarantine fails with
the not-found error and returns the filesystem unchanged. -/
theorem quarantine_idempotent (fs : FS) (name g b : String)
    (hsplit : splitRepositoryName name = (g, b))
    (hg : g ≠ "") (hb : b ≠ "") (hbw : b.toList.all isWordChar = true)
    (m : Nat) (hex : fs (repoPathOf g b) = some m) :
    ((deleteRepositoryFS fs name).1 = .ok () ∧
      (deleteRepositoryFS fs name).2 (repoPathOf g b) = none ∧
      (deleteRepositoryFS fs name).2 (repoPathOf g b ++ ".deleted") = some 0) ∧
    ((createRepositoryFull (deleteRepositoryFS fs name).2 b g true).1 = .ok () ∧
      (createRepositoryFull (deleteRepositoryFS fs name).2 b g true).2 (repoPathOf g b) =
        some 0o755 ∧
      (createRepositoryFull (deleteRepositoryFS fs name).2 b g true).2
        (repoPathOf g b ++ ".deleted") = some 0) ∧
    ((deleteRepositoryFS (createRepositoryFull (deleteRepositoryFS fs name).2 b g true).2
        name).1 = .ok () ∧
      (deleteRepositoryFS (createRepositoryFull (deleteRepositoryFS fs name).2 b g true).2
        name).2 (repoPathOf g b) = none ∧
      (deleteRepositoryFS (createRepositoryFull (deleteRepositoryFS fs name).2 b g true).2
        name).2 (repoPathOf g b ++ ".deleted") = some 0) ∧
    (∀ fs0 : FS, fs0 (repoPathOf g b) = none →
      deleteRepositoryFS fs0 name =
        (.error ("repository does not exist: " ++ b), fs0)) := by
  have hRN : repoPathOf g b ≠ repoPathOf g b ++ ".deleted" := ne_append_deleted _
  have hNR : repoPathOf g b ++ ".deleted" ≠ repoPathOf g b := fun e => hRN e.symm
  have step1 := delete_ok fs name g b hsplit m hex
  have hcre :
      (createRepositoryFull (deleteRepositoryFS fs name).2 b g true).1 = .ok () ∧
      (createRepositoryFull (deleteRepositoryFS fs name).2 b g true).2 (repoPathOf g b) =
        some 0o755 ∧
      (createRepositoryFull (deleteRepositoryFS fs name).2 b g true).2
        (repoPathOf g b ++ ".deleted") = some 0 := by
    unfold createRepositoryFull validateRepositoryName
    rw [if_neg hb,
      if_neg (show ¬ (b.toList.all isWordChar && decide (b ≠ "")) = false from by
        simp only [hbw, Bool.true_and]
        simp [hb]),
      if_neg hg]
    dsimp only
    rw [show goJoin2 (goJoin2 gitRepositoryHome g) (b ++ ".git") = repoPathOf g b from rfl,
      step1.2.1]
    dsimp only [Option.isSome_none]
    rw [if_neg (by simp)]
    unfold createRepositoryFS
    rw [if_neg hg]
    dsimp only
    try rw [show goJoin2 (goJoin2 gitRepositoryHome g) (b ++ ".git") = repoPathOf g b from rfl]
    refine ⟨by simp, ?_, ?_⟩
    · rw [if_pos rfl]
      dsimp only
      rw [fsMkdirAll_at, step1.2.1]
      rfl
    · rw [if_pos rfl]
      dsimp only
      rw [fsMkdirAll_other _ _ _ hNR, step1.2.2]
  have step3 := delete_ok (createRepositoryFull (deleteRepositoryFS fs name).2 b g true).2
    name g b hsplit 0o755 hcre.2.1
  refine ⟨step1, hcre, step3, ?_⟩
  intro fs0 h0
  unfold deleteRepositoryFS
  rw [hsplit]
  dsimp only
  rw [show goJoin2 (goJoin2 gitRepositoryHome g) (b ++ ".git") = repoPathOf g b from rfl, h0]

/-- Concrete store for the C5 witness: an active repository and a
leftover quarantine of the same name. -/
def fsQuarantine : FS := fun p =>
  if p = "/home/git/git/proj.git" then some 0o755
  else if p = "/home/git/git/proj.git.deleted" then some 0 else none

/-- Witness for C5 at a concrete store with a stale quarantine. -/
theorem quarantine_idempotent_witness :
    (splitRepositoryName "git/proj" = ("git", "proj") ∧ ("git" : String) ≠ "" ∧
      ("proj" : String) ≠ "" ∧ "proj".toList.all isWordChar = true ∧
      fsQuarantine (repoPathOf "git" "proj") = some 0o755) ∧
    (((deleteRepositoryFS fsQuarantine "git/proj").1 = .ok () ∧
      (deleteRepositoryFS fsQuarantine "git/proj").2 (repoPathOf "git" "proj") = none ∧
      (deleteRepositoryFS fsQuarantine "git/proj").2
        (repoPathOf "git" "proj" ++ ".deleted") = some 0) ∧
    ((createRepositoryFull (deleteRepositoryFS fsQuarantine "git/proj").2 "proj" "git"
        true).1 = .ok () ∧
      (createRepositoryFull (deleteRepositoryFS fsQuarantine "git/proj").2 "proj" "git"
        true).2 (repoPathOf "git" "proj") = some 0o755 ∧
      (createRepositoryFull (deleteRepositoryFS fsQuarantine "git/proj").2 "proj" "git"
        true).2 (repoPathOf "git" "proj" ++ ".deleted") = some 0) ∧
    ((deleteRepositoryFS (createRepositoryFull (deleteRepositoryFS fsQuarantine
        "git/proj").2 "proj" "git" true).2 "git/proj").1 = .ok () ∧
      (deleteRepositoryFS (createRepositoryFull (deleteRepositoryFS fsQuarantine
        "git/proj").2 "proj" "git" true).2 "git/proj").2 (repoPathOf "git" "proj") = none ∧
      (deleteRepositoryFS (createRepositoryFull (deleteRepositoryFS fsQuarantine
        "git/proj").2 "proj" "git" true).2 "git/proj").2
        (repoPathOf "git" "proj" ++ ".deleted") = some 0) ∧
    (∀ fs0 : FS, fs0 (repoPathOf "git" "proj") = none →
      deleteRepositoryFS fs0 "git/proj" =
        (.error ("repository does not exist: " ++ "proj"), fs0))) :=
  ⟨⟨by decide, by decide, by decide, by decide, by decide⟩,
    quarantine_idempotent fsQuarantine "git/proj" "git" "proj" (by decide) (by decide)
      (by decide) (by decide) 0o755 (by decide)⟩

/-! ## Discovery lemmas (C6 amended) -/

theorem getDirectoriesEnts_mem {base : String} {entries : List OsDirEnt}
    {pe : String × OsDirEnt} (h : pe ∈ getDirectoriesEnts base entries) :
    pe.2 ∈ entries ∧ pe.1 = goJoin2 base pe.2.name := by
  rcases List.mem_filterMap.mp h with ⟨e, he, hfe⟩
  split at hfe
  · exact absurd hfe (by simp)
  · split at hfe
    · split at hfe
      · exact absurd hfe (by simp)
      · split at hfe
        · simp only [Option.some.injEq] at hfe
          subst hfe
          exact ⟨he, rfl⟩
        · exact absurd hfe (by simp)
    · simp only [Option.some.injEq] at hfe
      subst hfe
      exact ⟨he, rfl⟩

theorem append_git_not_deleted (s : String) :
    goEndsWith (s ++ ".git") ".deleted" = false := by
  rw [Bool.eq_false_iff]
  intro h
  unfold goEndsWith at h
  rcases List.isSuffixOf_iff_suffix.mp h with ⟨t, ht⟩
  have hrev := congrArg List.reverse ht
  rw [List.reverse_append] at hrev
  have hdata : (s ++ ".git").toList = s.toList ++ (".git" : String).toList := rfl
  rw [hdata, List.reverse_append] at hrev
  have h1 : (".deleted" : String).toList.reverse =
      'd' :: 'e' :: 't' :: 'e' :: 'l' :: 'e' :: 'd' :: '.' :: [] := rfl
  have h2 : (".git" : String).toList.reverse = 't' :: 'i' :: 'g' :: '.' :: [] := rfl
  rw [h1, h2] at hrev
  exact absurd (List.head_eq_of_cons_eq hrev) (by decide)

/-- C6 (amended): every repository returned by the group scan stems from
a directory entry whose stat succeeded with at least one read bit set
and which holds a `HEAD` file — so a quarantined subtree whose
permissions were revoked (mode 0, as quarantine sets) is excluded by the
read-permission filter, not by its name; and the path constructed for
direct `(group, name)` resolution always ends in the bare suffix and
never carries the quarantine suffix. -/
theorem quarantine_excluded (entries : List OsDirEnt)
    (lco : String → Option String) (g : String) (rs : List GitRepository)
    (h : getGitRepositories entries lco g = .ok rs) :
    (∀ r ∈ rs, ∃ e ∈ entries,
      r.Path = goJoin2 (goJoin2 gitRepositoryHome g) e.name ∧
      (∃ mode, e.statMode = some mode ∧ mode &&& 0o444 ≠ 0) ∧ e.hasHead = true) ∧
    (∀ gn rn : String,
      goEndsWith (goJoin2 (goJoin2 gitRepositoryHome gn) rn ++ ".git") ".deleted" = false) := by
  constructor
  · intro r hr
    unfold getGitRepositories at h
    split at h
    · exact absurd h (by simp)
    · simp only [Except.ok.injEq] at h
      subst h
      have hr2 := mem_sortByLe.mp hr
      rcases List.mem_filterMap.mp hr2 with ⟨pe, hpe, hfpe⟩
      rcases getDirectoriesEnts_mem hpe with ⟨hmem, hpath⟩
      refine ⟨pe.2, hmem, ?_⟩
      split at hfpe
      · exact absurd hfpe (by simp)
      · rename_i mode hmode
        split at hfpe
        · exact absurd hfpe (by simp)
        · split at hfpe
          · simp only [Option.some.injEq] at hfpe
            subst hfpe
            refine ⟨hpath, ⟨mode, hmode, by assumption⟩, by assumption⟩
          · exact absurd hfpe (by simp)
  · intro gn rn
    exact append_git_not_deleted _

/-- Witness for C6 (amended): a store with one active readable
repository and one mode-0 quarantined subtree; the scan lists only the
active one. -/
theorem quarantine_excluded_witness :
    getGitRepositories
      [⟨"proj.git", true, false, none, some 0o755, true⟩,
       ⟨"old.git.deleted", true, false, none, some 0, true⟩]
      (fun _ => none) "git" =
      .ok ((getGitRepositories
        [⟨"proj.git", true, false, none, some 0o755, true⟩,
         ⟨"old.git.deleted", true, false, none, some 0, true⟩]
        (fun _ => none) "git").toOption.getD []) ∧
    (∀ r ∈ (getGitRepositories
        [⟨"proj.git", true, false, none, some 0o755, true⟩,
         ⟨"old.git.deleted", true, false, none, some 0, true⟩]
        (fun _ => none) "git").toOption.getD [],
      ∃ e ∈ [(⟨"proj.git", true, false, none, some 0o755, true⟩ : OsDirEnt),
             ⟨"old.git.deleted", true, false, none, some 0, true⟩],
        r.Path = goJoin2 (goJoin2 gitRepositoryHome "git") e.name ∧
        (∃ mode, e.statMode = some mode ∧ mode &&& 0o444 ≠ 0) ∧ e.hasHead = true) :=
  ⟨rfl,
    (quarantine_excluded _ (fun _ => none) "git" _ rfl).1⟩

/-! ## Commit record parsing lemmas (C8) -/

theorem splitChar_no_sep (c : Char) (xs : List Char) (h : ∀ x ∈ xs, x ≠ c) :
    splitChar c xs = [xs] := by
  induction xs with
  | nil => rfl
  | cons b bs ih =>
    have hb : b ≠ c := h b (by simp)
    simp only [splitChar, if_neg hb]
    rw [ih (fun x hx => h x (by simp [hx]))]

theorem splitChar_append_sep (c : Char) (xs ys : List Char) (h : ∀ x ∈ xs, x ≠ c) :
    splitChar c (xs ++ c :: ys) = xs :: splitChar c ys := by
  induction xs with
  | nil => simp [splitChar]
  | cons b bs ih =>
    have hb : b ≠ c := h b (by simp)
    show splitChar c (b :: (bs ++ c :: ys)) = _
    simp only [splitChar, if_neg hb]
    rw [ih (fun x hx => h x (by simp [hx]))]

theorem goSplitChar_record (a t m : String)
    (ha : ∀ x ∈ a.toList, x ≠ '|') (ht : ∀ x ∈ t.toList, x ≠ '|')
    (hm : ∀ x ∈ m.toList, x ≠ '|') :
    goSplitChar '|' (a ++ "|" ++ t ++ "|" ++ m) = [a, t, m] := by
  unfold goSplitChar
  have hdata : (a ++ "|" ++ t ++ "|" ++ m).toList =
      a.toList ++ '|' :: (t.toList ++ '|' :: m.toList) := by
    show (a ++ "|" ++ t ++ "|" ++ m).data = a.data ++ '|' :: (t.data ++ '|' :: m.data)
    simp [String.data_append]
  rw [hdata, splitChar_append_sep _ _ _ ha, splitChar_append_sep _ _ _ ht,
    splitChar_no_sep _ _ hm]
  rfl

/-- C8 (amended): `getLastCommit` parses a single trimmed
`author|epoch|subject` record into `CommitInfo` and yields `none` on any
failure (failed command, wrong arity, unparseable epoch) rather than an
error; the per-file "last modified" value attached to tree entries,
however, is produced by a separate one-value query that substitutes the
current clock on failure instead of reporting an absent value. -/
theorem last_commit_contract :
    (∀ o : GitOracle, o.logLast = none → getLastCommit o = none) ∧
    (∀ s : String, (goSplitChar '|' (goTrimSpace s)).length ≠ 3 →
      parseLastCommit (some s) = none) ∧
    (∀ s a t m : String, goSplitChar '|' (goTrimSpace s) = [a, t, m] →
      parseInt64 t = none → parseLastCommit (some s) = none) ∧
    (∀ (s a t m : String) (ut : Int), goSplitChar '|' (goTrimSpace s) = [a, t, m] →
      parseInt64 t = some ut →
      parseLastCommit (some s) = some { Author := a, Date := ut, Message := m }) ∧
    (∀ a t m : String, (∀ x ∈ a.toList, x ≠ '|') → (∀ x ∈ t.toList, x ≠ '|') →
      (∀ x ∈ m.toList, x ≠ '|') →
      goSplitChar '|' (a ++ "|" ++ t ++ "|" ++ m) = [a, t, m]) ∧
    (∀ (o : GitOracle) (now : Int) (p : String), o.logLastFile p = none →
      getFileLastModified o now p = now) ∧
    (∀ (o : GitOracle) (now : Int) (p out : String) (ut : Int),
      o.logLastFile p = some out → parseInt64 (goTrimSpace out) = some ut →
      getFileLastModified o now p = ut) := by
  refine ⟨?_, ?_, ?_, ?_, goSplitChar_record, ?_, ?_⟩
  · intro o h
    unfold getLastCommit parseLastCommit
    rw [h]
  · intro s h
    unfold parseLastCommit
    dsimp only
    split
    · rename_i heq
      exact absurd (by rw [heq]; rfl) h
    · rfl
  · intro s a t m hsp hpi
    unfold parseLastCommit
    dsimp only
    rw [hsp]
    dsimp only
    rw [hpi]
  · intro s a t m ut hsp hpi
    unfold parseLastCommit
    dsimp only
    rw [hsp]
    dsimp only
    rw [hpi]
  · intro o now p h
    unfold getFileLastModified
    rw [h]
  · intro o now p out ut h hpi
    unfold getFileLastModified
    rw [h]
    dsimp only
    rw [hpi]

/-- Witness for C8 (amended) at concrete records and oracles. -/
theorem last_commit_contract_witness :
    (noOracle.logLast = none ∧ getLastCommit noOracle = none) ∧
    ((goSplitChar '|' (goTrimSpace "no pipes here")).length ≠ 3 ∧
      parseLastCommit (some "no pipes here") = none) ∧
    (goSplitChar '|' (goTrimSpace "alice|junk|hi") = ["alice", "junk", "hi"] ∧
      parseInt64 "junk" = none ∧ parseLastCommit (some "alice|junk|hi") = none) ∧
    (goSplitChar '|' (goTrimSpace "alice|17|hi") = ["alice", "17", "hi"] ∧
      parseInt64 "17" = some 17 ∧
      parseLastCommit (some "alice|17|hi") =
        some { Author := "alice", Date := 17, Message := "hi" }) ∧
    (goSplitChar '|' ("alice" ++ "|" ++ "17" ++ "|" ++ "hi") = ["alice", "17", "hi"]) ∧
    (noOracle.logLastFile "f" = none ∧ getFileLastModified noOracle 5 "f" = 5) ∧
    (oListing.logLastFile "f" = some "1700000000" ∧
      parseInt64 (goTrimSpace "1700000000") = some 1700000000 ∧
      getFileLastModified oListing 5 "f" = 1700000000) :=
  ⟨⟨rfl, last_commit_contract.1 noOracle rfl⟩,
   ⟨by decide, last_commit_contract.2.1 "no pipes here" (by decide)⟩,
   ⟨by decide, by decide,
     last_commit_contract.2.2.1 "alice|junk|hi" "alice" "junk" "hi" (by decide) (by decide)⟩,
   ⟨by decide, by decide,
     last_commit_contract.2.2.2.1 "alice|17|hi" "alice" "17" "hi" 17 (by decide) (by decide)⟩,
   last_commit_contract.2.2.2.2.1 "alice" "17" "hi" (by decide) (by decide) (by decide),
   ⟨rfl, last_commit_contract.2.2.2.2.2.1 noOracle 5 "f" rfl⟩,
   ⟨rfl, by decide,
     last_commit_contract.2.2.2.2.2.2 oListing 5 "f" "1700000000" 1700000000 rfl (by decide)⟩⟩

/-! ## Fields lemmas (C9 amended) -/

/-- Char-level form of `strings.Join(ws, " ")`. -/
def joinSpaceChars : List (List Char) → List Char
  | [] => []
  | [w] => w
  | w :: ws => w ++ ' ' :: joinSpaceChars ws

theorem joinSpace_data (ws : List String) :
    (joinSpace ws).toList = joinSpaceChars (ws.map String.toList) := by
  induction ws with
  | nil => rfl
  | cons w ws ih =>
    cases ws with
    | nil => rfl
    | cons w2 rest =>
      show (w ++ " " ++ joinSpace (w2 :: rest)).data =
        w.data ++ ' ' :: joinSpaceChars ((w2 :: rest).map String.toList)
      rw [← ih]
      simp [String.data_append]

theorem fieldsAux_word (w cs acc : List Char)
    (hsf : ∀ c ∈ w, goIsSpace c = false) :
    fieldsAux (w ++ cs) acc = fieldsAux cs (w.reverse ++ acc) := by
  induction w generalizing acc with
  | nil => simp
  | cons c wt ih =>
    have hc : goIsSpace c = false := hsf c (by simp)
    show fieldsAux (c :: (wt ++ cs)) acc = _
    simp only [fieldsAux, hc]
    rw [ih (c :: acc) (fun x hx => hsf x (by simp [hx]))]
    simp

theorem fieldsAux_join (ws : List (List Char))
    (h : ∀ w ∈ ws, w ≠ [] ∧ ∀ c ∈ w, goIsSpace c = false) :
    fieldsAux (joinSpaceChars ws) [] = ws := by
  induction ws with
  | nil => rfl
  | cons w ws ih =>
    have hw := h w (by simp)
    cases ws with
    | nil =>
      show fieldsAux w [] = [w]
      have h2 := fieldsAux_word w [] [] hw.2
      simp only [List.append_nil] at h2
      rw [h2]
      show (if w.reverse = [] then [] else [w.reverse.reverse]) = [w]
      rw [if_neg (by simp [hw.1]), List.reverse_reverse]
    | cons w2 rest =>
      show fieldsAux (w ++ ' ' :: joinSpaceChars (w2 :: rest)) [] = _
      rw [fieldsAux_word w _ [] hw.2]
      show fieldsAux (' ' :: joinSpaceChars (w2 :: rest)) (w.reverse ++ []) = _
      simp only [fieldsAux, List.append_nil, show goIsSpace ' ' = true from rfl, if_true]
      rw [if_neg (by simp [hw.1]), List.reverse_reverse]
      rw [ih (fun x hx => h x (by simp [hx]))]

theorem string_ne_empty_of_data {s : String} (h : s.data ≠ []) : s ≠ "" := by
  intro he
  rw [he] at h
  exact h rfl

theorem goFields_join (p0 p1 p2 : String) (ws : List String)
    (hp0 : ∀ c ∈ p0.toList, goIsSpace c = false) (h0 : p0 ≠ "")
    (hp1 : ∀ c ∈ p1.toList, goIsSpace c = false) (h1 : p1 ≠ "")
    (hp2 : ∀ c ∈ p2.toList, goIsSpace c = false) (h2 : p2 ≠ "")
    (hws : ws ≠ [])
    (hw : ∀ w ∈ ws, w ≠ "" ∧ ∀ c ∈ w.toList, goIsSpace c = false) :
    goFields (p0 ++ " " ++ (p1 ++ " " ++ (p2 ++ " " ++ joinSpace ws))) =
      p0 :: p1 :: p2 :: ws := by
  unfold goFields
  have hdata : (p0 ++ " " ++ (p1 ++ " " ++ (p2 ++ " " ++ joinSpace ws))).toList =
      joinSpaceChars (p0.toList :: p1.toList :: p2.toList :: ws.map String.toList) := by
    cases ws with
    | nil => exact absurd rfl hws
    | cons w1 rest =>
      show (p0 ++ " " ++ (p1 ++ " " ++ (p2 ++ " " ++ joinSpace (w1 :: rest)))).data =
        p0.data ++ ' ' :: (p1.data ++ ' ' :: (p2.data ++ ' ' ::
          joinSpaceChars ((w1 :: rest).map String.toList)))
      rw [← joinSpace_data]
      simp [String.data_append]
  rw [hdata, fieldsAux_join]
  · simp only [List.map_cons, List.map_map]
    have hmk : ∀ t : String, String.mk t.toList = t := fun t => rfl
    rw [hmk, hmk, hmk,
      show (String.mk ∘ String.toList) = id from funext fun t => rfl, List.map_id]
  · intro w hwn
    rcases List.mem_cons.mp hwn with rfl | hwn
    · exact ⟨fun e => h0 (congrArg String.mk e), hp0⟩
    rcases List.mem_cons.mp hwn with rfl | hwn
    · exact ⟨fun e => h1 (congrArg String.mk e), hp1⟩
    rcases List.mem_cons.mp hwn with rfl | hwn
    · exact ⟨fun e => h2 (congrArg String.mk e), hp2⟩
    rcases List.mem_map.mp hwn with ⟨w0, hw0, rfl⟩
    refine ⟨?_, (hw w0 hw0).2⟩
    intro e
    exact (hw w0 hw0).1 (by
      have := congrArg String.mk e
      simpa using this)

/-- C9 (amended): for a record whose fields are separated by single
spaces and whose words are themselves whitespace-free, the parser keeps
the entire multi-word trailing name, rejoined with single spaces, rather
than truncating at the first whitespace token (runs of whitespace inside
a name, however, are collapsed — see the counterexample). -/
theorem tree_name_rejoin (o : GitOracle) (now : Int) (dp : Option String)
    (p0 p1 p2 : String) (ws : List String)
    (hp0 : ∀ c ∈ p0.toList, goIsSpace c = false) (h0 : p0 ≠ "")
    (hp1 : ∀ c ∈ p1.toList, goIsSpace c = false) (h1 : p1 ≠ "")
    (hp2 : ∀ c ∈ p2.toList, goIsSpace c = false) (h2 : p2 ≠ "")
    (hws : ws ≠ [])
    (hw : ∀ w ∈ ws, w ≠ "" ∧ ∀ c ∈ w.toList, goIsSpace c = false) :
    ∃ f, parseLsTreeLine o now dp
        (p0 ++ " " ++ (p1 ++ " " ++ (p2 ++ " " ++ joinSpace ws))) = some f ∧
      f.Name = joinSpace ws := by
  have hline : (p0 ++ " " ++ (p1 ++ " " ++ (p2 ++ " " ++ joinSpace ws))) ≠ "" := by
    apply string_ne_empty_of_data
    rw [String.data_append, String.data_append]
    intro he
    rcases List.append_eq_nil.mp he with ⟨he0, _⟩
    rcases List.append_eq_nil.mp he0 with ⟨_, he1⟩
    exact absurd he1 (by decide)
  unfold parseLsTreeLine
  rw [if_neg hline, goFields_join p0 p1 p2 ws hp0 h0 hp1 h1 hp2 h2 hws hw]
  cases ws with
  | nil => exact absurd rfl hws
  | cons w1 rest =>
    dsimp only
    exact ⟨_, rfl, rfl⟩

/-- Witness for C9 (amended): the name `"my file"` with a single
internal space survives the rejoin. -/
theorem tree_name_rejoin_witness :
    ∃ f, parseLsTreeLine noOracle 0 none
        ("100644" ++ " " ++ ("blob" ++ " " ++ ("abcd" ++ " " ++ joinSpace ["my", "file"]))) =
        some f ∧ f.Name = joinSpace ["my", "file"] :=
  tree_name_rejoin noOracle 0 none "100644" "blob" "abcd" ["my", "file"]
    (by decide) (by decide) (by decide) (by decide) (by decide) (by decide)
    (by decide) (by decide)
